import Mathlib

set_option maxHeartbeats 1000000

/-!
Verification of the Visual Studio settings XML sorter
(`sort_vs_settings.py`): a shallow embedding of the tree data model,
the recursive child-sorting pass, the indentation pass and the
serializer, together with proofs of the specified properties.
-/

/-- A parsed XML element: tag name, attribute list (in stored order),
the `text` fragment (before the first child), the `tail` fragment
(after the closing tag) and the ordered children.  The parser's `None`
text/tail is represented as `""` (the two are observationally equal in
every code path of the program: both fail Python truthiness). -/
structure Node where
  tag : String
  attrs : List (String × String)
  text : String
  tail : String
  children : List Node

/-- `element.get(key, default=None)`: attribute lookup. -/
def Node.get (n : Node) (k : String) : Option String :=
  n.attrs.lookup k

/-- `sort_key_for_element` (line 25): `element.get('name', element.get('GUID', ''))`.
The value of `name` if that attribute is present (even empty), else the
value of `GUID` if present, else the empty string. -/
def sort_key_for_element (n : Node) : String :=
  (n.get "name").getD ((n.get "GUID").getD "")

/-- Python truthiness of `element.get(k)`: true iff attribute `k` is
present with a non-empty value. -/
def truthyAttr (n : Node) (k : String) : Bool :=
  match n.get k with
  | some v => v != ""
  | none => false

/-- The fixed sortable tag set (line 34). -/
def sortable_tags : List String :=
  ["PropertyValue", "ToolsOptionsCategory", "ToolsOptionsSubCategory", "Category"]

/-- The eligibility test of line 42:
`child.tag in sortable_tags and (child.get('name') or child.get('GUID'))`. -/
def isSortable (n : Node) : Bool :=
  sortable_tags.contains n.tag && (truthyAttr n "name" || truthyAttr n "GUID")

/-- The comparison used by `sortable_children.sort(key=sort_key_for_element)`:
ordinal (code-point lexicographic) order on the sort keys. -/
def leKey (a b : Node) : Bool :=
  decide (sort_key_for_element a ≤ sort_key_for_element b)

/-- `sort_children_recursively` (lines 28-64) as a pure function: partition
the children into non-sortable (`other_children`) and sortable, stably sort
the sortable ones by key, reassemble as others-then-sorted, and recurse
into every child in the new order. -/
def sort_children_recursively : Node → Node
  | Node.mk tag attrs text tail children =>
    let other_children := children.filter (fun c => !(isSortable c))
    let sortable_children := children.filter (fun c => isSortable c)
    let sorted_children := sortable_children.mergeSort leKey
    Node.mk tag attrs text tail
      ((other_children ++ sorted_children).attach.map
        (fun c => sort_children_recursively c.1))
termination_by n => sizeOf n
decreasing_by
  have hc : c.1 ∈ children := by
    rcases List.mem_append.mp c.2 with h | h
    · exact List.mem_of_mem_filter h
    · exact List.mem_of_mem_filter (List.mem_mergeSort.mp h)
  have := List.sizeOf_lt_of_mem hc
  simp only [Node.mk.sizeOf_spec]
  omega

/-- `"\t" * level`. -/
def tabs (level : Nat) : String :=
  String.mk (List.replicate level '\t')

/-- A character stripped by Python's `str.strip()` (ASCII range). -/
def isPySpace (c : Char) : Bool :=
  c.isWhitespace || c == '\x0b' || c == '\x0c'

/-- Python's `not s or not s.strip()`: the field is `None`, empty, or
whitespace-only.  (`None` is represented as `""`.) -/
def wsOnly (s : String) : Bool :=
  s.data.all isPySpace

/-- Lines 81-82 of `indent_xml`: after the loop, `child` is the last
child; overwrite its tail with `s` when it is empty/whitespace-only. -/
def fixLast (cs : List Node) (s : String) : List Node :=
  match cs with
  | [] => []
  | [c] => [if wsOnly c.tail then { c with tail := s } else c]
  | c :: c2 :: rest => c :: fixLast (c2 :: rest) s

/-- `indent_xml` (lines 71-85) as a pure function.  With children: set a
whitespace-only `text` to newline + (level+1) tabs, a whitespace-only
`tail` to newline + level tabs, recurse into each child at level+1, then
overwrite the last child's whitespace-only tail to newline + level tabs.
Without children: only at level > 0, set a whitespace-only tail. -/
def indent_xml (level : Nat) (elem : Node) : Node :=
  let indent_str := tabs level
  if elem.children.isEmpty then
    if level != 0 && wsOnly elem.tail then
      { elem with tail := "\n" ++ indent_str }
    else elem
  else
    let text2 := if wsOnly elem.text then "\n" ++ indent_str ++ "\t" else elem.text
    let tail2 := if wsOnly elem.tail then "\n" ++ indent_str else elem.tail
    let cs := elem.children.attach.map (fun c => indent_xml (level + 1) c.1)
    { elem with text := text2, tail := tail2, children := fixLast cs ("\n" ++ indent_str) }
termination_by sizeOf elem
decreasing_by
  have := List.sizeOf_lt_of_mem c.2
  cases elem
  simp only [Node.mk.sizeOf_spec]
  simp only [Node.children] at this
  omega

/-- `xml.etree.ElementTree`'s `_escape_cdata`. -/
def escape_cdata (s : String) : String :=
  String.join (s.data.map (fun c =>
    if c == '&' then "&amp;"
    else if c == '<' then "&lt;"
    else if c == '>' then "&gt;"
    else String.mk [c]))

/-- `xml.etree.ElementTree`'s `_escape_attrib`. -/
def escape_attrib (s : String) : String :=
  String.join (s.data.map (fun c =>
    if c == '&' then "&amp;"
    else if c == '<' then "&lt;"
    else if c == '>' then "&gt;"
    else if c == '"' then "&quot;"
    else if c == '\r' then "&#13;"
    else if c == '\n' then "&#10;"
    else if c == '\t' then "&#09;"
    else String.mk [c]))

/-- Attribute serialization, in stored order. -/
def serializeAttrs (attrs : List (String × String)) : String :=
  String.join (attrs.map (fun kv => " " ++ kv.1 ++ "=\"" ++ escape_attrib kv.2 ++ "\""))

/-- `ET.tostring(elem, encoding='unicode')` (`_serialize_xml` with the
default `short_empty_elements=True`): never emits an XML declaration;
emits `<tag attrs...>text children</tag>tail`, or the short form
`<tag attrs... />tail` when the element has falsy text and no children. -/
def serialize (elem : Node) : String :=
  "<" ++ elem.tag ++ serializeAttrs elem.attrs ++
    (if elem.text != "" || !elem.children.isEmpty then
      ">" ++ (if elem.text != "" then escape_cdata elem.text else "")
          ++ String.join (elem.children.attach.map (fun c => serialize c.1))
          ++ "</" ++ elem.tag ++ ">"
    else " />") ++
    (if elem.tail != "" then elem.tail else "")
termination_by sizeOf elem
decreasing_by
  have := List.sizeOf_lt_of_mem c.2
  cases elem
  simp only [Node.mk.sizeOf_spec]
  simp only [Node.children] at this
  omega

/-- `format_xml_output` (lines 67-88): indent in place, then serialize
without an XML declaration. -/
def format_xml_output (root : Node) : String :=
  serialize (indent_xml 0 root)

/-- Observable outcome of one run of `process_settings_file`. -/
structure ProcResult where
  exitCode : Nat
  errLines : List String
  outLines : List String
  written : Option String

/-- `process_settings_file` (lines 91-125).  The external XML parse
(`ET.parse`) is passed in as its outcome: `Except.error msg` models
`ET.ParseError` with diagnostic `msg`, `Except.ok root` a successful
parse.  On error: one line on stderr and `sys.exit(1)`, nothing written.
On success: sort, format, write the result, report on stdout. -/
def process_settings_file (input_parse : Except String Node) (output_file : String) :
    ProcResult :=
  match input_parse with
  | Except.error msg =>
      ProcResult.mk 1 ["Error parsing XML file: " ++ msg] [] none
  | Except.ok root =>
      let sorted_root := sort_children_recursively root
      let xml_output := format_xml_output sorted_root
      ProcResult.mk 0 [] ["Sorted settings written to: " ++ output_file] (some xml_output)

/-- The reassembled child order of one sorting pass: non-sortable
children in original order, then the sortable ones stably sorted. -/
def reorder (children : List Node) : List Node :=
  children.filter (fun c => !(isSortable c)) ++
    (children.filter (fun c => isSortable c)).mergeSort leKey

/-- The sort key as the specification words it: the `name` value only
when present AND non-empty, else the `GUID` value when present and
non-empty, else the empty string. -/
def spec_sort_key (n : Node) : String :=
  if truthyAttr n "name" then (n.get "name").getD ""
  else if truthyAttr n "GUID" then (n.get "GUID").getD ""
  else ""

/-- The key rule the code actually implements: the `name` value whenever
that attribute is present (even empty), else the `GUID` value when
present, else the empty string. -/
def amended_sort_key (n : Node) : String :=
  if (n.get "name").isSome then (n.get "name").getD ""
  else if (n.get "GUID").isSome then (n.get "GUID").getD ""
  else ""

/-- Everything a node carries except its children: used to state that
sorting moves nodes without altering any content. -/
structure Payload where
  tag : String
  attrs : List (String × String)
  text : String
  tail : String

/-- The payloads of all nodes of a tree, in depth-first order. -/
def payloads : Node → List Payload
  | Node.mk tag attrs text tail children =>
    Payload.mk tag attrs text tail ::
      (children.attach.map (fun c => payloads c.1)).flatten
termination_by n => sizeOf n
decreasing_by
  have := List.sizeOf_lt_of_mem c.2
  simp only [Node.mk.sizeOf_spec]
  omega

/-- The per-parent output invariant: non-sortable children first (the
child list literally decomposes as the non-sortable part followed by the
sortable part), and the sortable children are in nondecreasing key
order. -/
def nodeOrdered (n : Node) : Prop :=
  n.children = n.children.filter (fun c => !(isSortable c)) ++
      n.children.filter (fun c => isSortable c) ∧
  List.Pairwise (fun a b => sort_key_for_element a ≤ sort_key_for_element b)
    (n.children.filter (fun c => isSortable c))

/-- `P` holds at every node of the tree. -/
inductive AllNodes (P : Node → Prop) : Node → Prop where
  | mk : ∀ n : Node, P n → (∀ c ∈ n.children, AllNodes P c) → AllNodes P n

/-- Node-by-node content preservation between two trees of the same
shape: tags and attributes coincide, a `text`/`tail` field holding any
non-whitespace content is byte-identical, and the same holds recursively
for the children in order. -/
inductive ContentPreserved : Node → Node → Prop where
  | mk : ∀ s t : Node,
      s.tag = t.tag →
      s.attrs = t.attrs →
      (wsOnly s.text = false → t.text = s.text) →
      (wsOnly s.tail = false → t.tail = s.tail) →
      List.Forall₂ ContentPreserved s.children t.children →
      ContentPreserved s t

/-- Concrete childless element used in witnesses. -/
def sampleLeaf : Node := Node.mk "Other" [] "" "" []

/-- Concrete one-child element used in witnesses. -/
def sampleParent : Node := Node.mk "UserSettings" [] "" "" [sampleLeaf]

/-- `sampleLeaf` after `indent_xml` at level 1. -/
def sampleLeafIndented : Node := Node.mk "Other" [] "" ("\n" ++ tabs 1) []

/-- A sortable-tag node with an empty `name` attribute and `GUID="A"`:
the input separating the code's key rule from the specified one. -/
def emptyNameNode : Node := Node.mk "Category" [("name", ""), ("GUID", "A")] "" "" []

/-! ### Unfolding equations and elementary facts -/

theorem sort_children_recursively_def (tag : String) (attrs : List (String × String))
    (text tail : String) (children : List Node) :
    sort_children_recursively (Node.mk tag attrs text tail children) =
      Node.mk tag attrs text tail ((reorder children).map sort_children_recursively) := by
  rw [sort_children_recursively]
  rw [List.attach_map_val]
  rfl

theorem mem_of_mem_reorder {children : List Node} {c : Node}
    (h : c ∈ reorder children) : c ∈ children := by
  rcases List.mem_append.mp h with h | h
  · exact List.mem_of_mem_filter h
  · exact List.mem_of_mem_filter (List.mem_mergeSort.mp h)

theorem reorder_perm (children : List Node) : (reorder children).Perm children := by
  have h1 : ((children.filter (fun c => isSortable c)).mergeSort leKey).Perm
      (children.filter (fun c => isSortable c)) := List.mergeSort_perm _ _
  have h2 := List.filter_append_perm (fun c => !(isSortable c)) children
  simp only [Bool.not_not] at h2
  exact (List.Perm.append_left _ h1).trans h2

theorem sort_tag (n : Node) : (sort_children_recursively n).tag = n.tag := by
  cases n
  rw [sort_children_recursively_def]

theorem sort_attrs (n : Node) : (sort_children_recursively n).attrs = n.attrs := by
  cases n
  rw [sort_children_recursively_def]

theorem sort_text (n : Node) : (sort_children_recursively n).text = n.text := by
  cases n
  rw [sort_children_recursively_def]

theorem sort_tail (n : Node) : (sort_children_recursively n).tail = n.tail := by
  cases n
  rw [sort_children_recursively_def]

theorem sort_children_eq (tag : String) (attrs : List (String × String))
    (text tail : String) (children : List Node) :
    (sort_children_recursively (Node.mk tag attrs text tail children)).children =
      (reorder children).map sort_children_recursively := by
  rw [sort_children_recursively_def]

theorem sort_get (n : Node) (k : String) :
    (sort_children_recursively n).get k = n.get k := by
  unfold Node.get
  rw [sort_attrs]

theorem sort_key_sort (n : Node) :
    sort_key_for_element (sort_children_recursively n) = sort_key_for_element n := by
  unfold sort_key_for_element
  rw [sort_get, sort_get]

theorem isSortable_sort (n : Node) :
    isSortable (sort_children_recursively n) = isSortable n := by
  unfold isSortable truthyAttr
  rw [sort_tag, sort_get, sort_get]

theorem leKey_sort (a b : Node) :
    leKey (sort_children_recursively a) (sort_children_recursively b) = leKey a b := by
  unfold leKey
  rw [sort_key_sort, sort_key_sort]

theorem leKey_trans (a b c : Node) : leKey a b → leKey b c → leKey a c := by
  unfold leKey
  intro h1 h2
  simp only [decide_eq_true_eq] at h1 h2 ⊢
  exact le_trans h1 h2

theorem leKey_total (a b : Node) : leKey a b || leKey b a := by
  unfold leKey
  rcases le_total (sort_key_for_element a) (sort_key_for_element b) with h | h <;> simp [h]

theorem Node.sizeOf_children_lt (n : Node) : sizeOf n.children < sizeOf n := by
  cases n
  simp only [Node.mk.sizeOf_spec]
  omega

theorem Node.strongInduction {P : Node → Prop}
    (step : ∀ n : Node, (∀ c ∈ n.children, P c) → P n) : ∀ n, P n := by
  have H : ∀ (k : Nat) (n : Node), sizeOf n ≤ k → P n := by
    intro k
    induction k with
    | zero =>
      intro n h
      exact absurd h (by cases n; simp only [Node.mk.sizeOf_spec]; omega)
    | succ k ih =>
      intro n h
      apply step
      intro c hc
      apply ih
      have h1 := List.sizeOf_lt_of_mem hc
      have h2 := Node.sizeOf_children_lt n
      omega
  intro n
  exact H (sizeOf n) n (Nat.le_refl _)

/-! ### One pass of sorting: filter characterizations -/

theorem comp_not_sortable :
    ((fun c => !(isSortable c)) ∘ sort_children_recursively) = fun c => !(isSortable c) := by
  funext c
  simp [Function.comp, isSortable_sort]

theorem comp_sortable :
    ((fun c => isSortable c) ∘ sort_children_recursively) = fun c => isSortable c := by
  funext c
  simp [Function.comp, isSortable_sort]

theorem filter_not_sortable_reorder (children : List Node) :
    (reorder children).filter (fun c => !(isSortable c)) =
      children.filter (fun c => !(isSortable c)) := by
  rw [reorder, List.filter_append]
  have hA : (children.filter (fun c => !(isSortable c))).filter (fun c => !(isSortable c)) =
      children.filter (fun c => !(isSortable c)) :=
    List.filter_eq_self.mpr (fun a ha => (List.mem_filter.mp ha).2)
  have hB : ((children.filter (fun c => isSortable c)).mergeSort leKey).filter
      (fun c => !(isSortable c)) = [] := by
    rw [List.filter_eq_nil_iff]
    intro a ha
    have h1 := (List.mem_filter.mp (List.mem_mergeSort.mp ha)).2
    simp [h1]
  rw [hA, hB, List.append_nil]

theorem filter_sortable_reorder (children : List Node) :
    (reorder children).filter (fun c => isSortable c) =
      (children.filter (fun c => isSortable c)).mergeSort leKey := by
  rw [reorder, List.filter_append]
  have hA : (children.filter (fun c => !(isSortable c))).filter (fun c => isSortable c) = [] := by
    rw [List.filter_eq_nil_iff]
    intro a ha
    have h1 := (List.mem_filter.mp ha).2
    simp only [Bool.not_eq_true'] at h1
    simp [h1]
  have hB : ((children.filter (fun c => isSortable c)).mergeSort leKey).filter
      (fun c => isSortable c) = (children.filter (fun c => isSortable c)).mergeSort leKey :=
    List.filter_eq_self.mpr (fun a ha => (List.mem_filter.mp (List.mem_mergeSort.mp ha)).2)
  rw [hA, hB, List.nil_append]

theorem map_sort_reorder_filter_not (children : List Node) :
    ((reorder children).map sort_children_recursively).filter (fun c => !(isSortable c)) =
      (children.filter (fun c => !(isSortable c))).map sort_children_recursively := by
  rw [List.filter_map, comp_not_sortable, filter_not_sortable_reorder]

theorem map_sort_reorder_filter_yes (children : List Node) :
    ((reorder children).map sort_children_recursively).filter (fun c => isSortable c) =
      ((children.filter (fun c => isSortable c)).mergeSort leKey).map
        sort_children_recursively := by
  rw [List.filter_map, comp_sortable, filter_sortable_reorder]

theorem pairwise_leKey_mergeSort (l : List Node) :
    (l.mergeSort leKey).Pairwise (fun a b => leKey a b = true) :=
  List.sorted_mergeSort leKey_trans leKey_total l

theorem pairwise_leKey_map_sort {l : List Node}
    (h : l.Pairwise (fun a b => leKey a b = true)) :
    (l.map sort_children_recursively).Pairwise (fun a b => leKey a b = true) := by
  rw [List.pairwise_map]
  exact h.imp (fun hb => by rw [leKey_sort]; exact hb)

theorem reorder_map_sort_reorder (children : List Node) :
    reorder ((reorder children).map sort_children_recursively) =
      (reorder children).map sort_children_recursively := by
  rw [reorder, map_sort_reorder_filter_not, map_sort_reorder_filter_yes]
  rw [List.mergeSort_of_sorted (pairwise_leKey_map_sort (pairwise_leKey_mergeSort _))]
  rw [← List.map_append, ← reorder]

/-- Claim C2: normalization is idempotent — a second application of
`sort_children_recursively` returns a tree equal (tags, attributes,
text, tail, child order, recursively) to the once-normalized tree. -/
theorem sort_children_recursively_idempotent : ∀ n : Node,
    sort_children_recursively (sort_children_recursively n) = sort_children_recursively n := by
  intro n0
  induction n0 using Node.strongInduction with
  | _ n ih =>
    cases n with
    | mk tag attrs text tail children =>
      rw [sort_children_recursively_def]
      rw [sort_children_recursively_def]
      congr 1
      rw [reorder_map_sort_reorder]
      rw [List.map_map]
      apply List.map_congr_left
      intro a ha
      simp only [Function.comp_apply]
      exact ih a (mem_of_mem_reorder ha)

/-! ### Claim C3: partition invariant -/

theorem nodeOrdered_sorted_node (tag : String) (attrs : List (String × String))
    (text tail : String) (children : List Node) :
    nodeOrdered (Node.mk tag attrs text tail ((reorder children).map sort_children_recursively)) := by
  constructor
  · show (reorder children).map sort_children_recursively =
      ((reorder children).map sort_children_recursively).filter (fun c => !(isSortable c)) ++
        ((reorder children).map sort_children_recursively).filter (fun c => isSortable c)
    rw [map_sort_reorder_filter_not, map_sort_reorder_filter_yes]
    rw [← List.map_append, ← reorder]
  · show List.Pairwise _
      (((reorder children).map sort_children_recursively).filter (fun c => isSortable c))
    rw [map_sort_reorder_filter_yes]
    have h1 := pairwise_leKey_map_sort (pairwise_leKey_mergeSort
      (children.filter (fun c => isSortable c)))
    exact h1.imp (fun hab => by
      have := of_decide_eq_true hab
      exact this)

theorem allNodes_ordered_sort : ∀ n : Node,
    AllNodes nodeOrdered (sort_children_recursively n) := by
  intro n0
  induction n0 using Node.strongInduction with
  | _ n ih =>
    cases n with
    | mk tag attrs text tail children =>
      rw [sort_children_recursively_def]
      refine AllNodes.mk _ ?_ ?_
      · exact nodeOrdered_sorted_node tag attrs text tail children
      · intro c hc
        obtain ⟨c0, hc0, rfl⟩ := List.mem_map.mp hc
        exact ih c0 (mem_of_mem_reorder hc0)

/-- Claim C3: after normalization, at every node of the result the
non-sortable children all precede the sortable ones and the sortable
children are in nondecreasing key order (`AllNodes nodeOrdered`), and at
every node the non-sortable children keep their original relative order:
they are exactly the original non-sortable children, normalized, in the
original sequence. -/
theorem sorted_partition_invariant (n : Node) :
    AllNodes nodeOrdered (sort_children_recursively n) ∧
    (sort_children_recursively n).children.filter (fun c => !(isSortable c)) =
      (n.children.filter (fun c => !(isSortable c))).map sort_children_recursively := by
  constructor
  · exact allNodes_ordered_sort n
  · cases n with
    | mk tag attrs text tail children =>
      rw [sort_children_recursively_def]
      exact map_sort_reorder_filter_not children

/-! ### Claim C4: stability of the sort -/

theorem mergeSort_filter_key (l : List Node) (k : String) :
    (l.mergeSort leKey).filter (fun c => sort_key_for_element c == k) =
      l.filter (fun c => sort_key_for_element c == k) := by
  have hmemkey : ∀ a ∈ l.filter (fun c => sort_key_for_element c == k),
      sort_key_for_element a = k := by
    intro a ha
    have := (List.mem_filter.mp ha).2
    exact eq_of_beq this
  have hpair : (l.filter (fun c => sort_key_for_element c == k)).Pairwise
      (fun a b => leKey a b = true) := by
    apply List.pairwise_of_forall_mem_list
    intro a ha b hb
    unfold leKey
    rw [hmemkey a ha, hmemkey b hb]
    simp
  have hsub : List.Sublist (l.filter (fun c => sort_key_for_element c == k))
      ((l.mergeSort leKey).filter (fun c => sort_key_for_element c == k)) := by
    have h1 : List.Sublist (l.filter (fun c => sort_key_for_element c == k)) (l.mergeSort leKey) :=
      List.sublist_mergeSort leKey_trans leKey_total hpair (List.filter_sublist l)
    have h2 := h1.filter (fun c => sort_key_for_element c == k)
    rw [List.filter_filter] at h2
    simpa only [Bool.and_self] using h2
  have hperm : ((l.mergeSort leKey).filter (fun c => sort_key_for_element c == k)).Perm
      (l.filter (fun c => sort_key_for_element c == k)) :=
    (List.mergeSort_perm l leKey).filter _
  exact ((hsub.eq_of_length hperm.length_eq.symm)).symm

/-- Claim C4: the sort is stable.  For every parent and every key value
`k`, the subsequence of sortable children whose key equals `k` appears in
the output in exactly its original relative order (each child normalized
recursively); hence any two sortable children with equal keys keep their
relative order. -/
theorem sort_stability (n : Node) (k : String) :
    (sort_children_recursively n).children.filter
        (fun c => isSortable c && (sort_key_for_element c == k)) =
      (n.children.filter (fun c => isSortable c && (sort_key_for_element c == k))).map
        sort_children_recursively := by
  cases n with
  | mk tag attrs text tail children =>
    rw [sort_children_recursively_def]
    show ((reorder children).map sort_children_recursively).filter _ = _
    rw [List.filter_map]
    have hp : ((fun c => isSortable c && (sort_key_for_element c == k)) ∘
        sort_children_recursively) = fun c => isSortable c && (sort_key_for_element c == k) := by
      funext c
      simp [Function.comp, isSortable_sort, sort_key_sort]
    rw [hp]
    congr 1
    rw [reorder, List.filter_append]
    have hA : (children.filter (fun c => !(isSortable c))).filter
        (fun c => isSortable c && (sort_key_for_element c == k)) = [] := by
      rw [List.filter_eq_nil_iff]
      intro a ha
      have h1 := (List.mem_filter.mp ha).2
      simp only [Bool.not_eq_true'] at h1
      simp [h1]
    have hB : ((children.filter (fun c => isSortable c)).mergeSort leKey).filter
        (fun c => isSortable c && (sort_key_for_element c == k)) =
        children.filter (fun c => isSortable c && (sort_key_for_element c == k)) := by
      have hcomm : ∀ l : List Node, l.filter
          (fun c => isSortable c && (sort_key_for_element c == k)) =
          (l.filter (fun c => isSortable c)).filter
            (fun c => sort_key_for_element c == k) := by
        intro l
        rw [List.filter_filter]
        apply List.filter_congr
        intro a _
        rw [Bool.and_comm]
      rw [hcomm, List.filter_eq_self.mpr
        (fun a ha => (List.mem_filter.mp (List.mem_mergeSort.mp ha)).2)]
      rw [mergeSort_filter_key, ← hcomm]
    rw [hA, hB, List.nil_append]

/-! ### Claim C9: sorting only permutes nodes -/

theorem payloads_def (tag : String) (attrs : List (String × String))
    (text tail : String) (children : List Node) :
    payloads (Node.mk tag attrs text tail children) =
      Payload.mk tag attrs text tail :: (children.map payloads).flatten := by
  rw [payloads]
  rw [List.attach_map_val]

theorem flatten_perm_of_forall₂ {α : Type} {l₁ l₂ : List (List α)}
    (h : List.Forall₂ (fun a b => a.Perm b) l₁ l₂) : l₁.flatten.Perm l₂.flatten := by
  induction h with
  | nil => exact List.Perm.refl _
  | cons hab htail ih =>
    simp only [List.flatten_cons]
    exact hab.append ih

theorem payloads_sort_perm : ∀ n : Node,
    (payloads (sort_children_recursively n)).Perm (payloads n) := by
  intro n0
  induction n0 using Node.strongInduction with
  | _ n ih =>
    cases n with
    | mk tag attrs text tail children =>
      rw [sort_children_recursively_def, payloads_def, payloads_def]
      apply List.Perm.cons
      rw [List.map_map]
      have h1 : List.Forall₂ (fun a b => a.Perm b)
          ((reorder children).map (payloads ∘ sort_children_recursively))
          ((reorder children).map payloads) := by
        rw [List.forall₂_map_left_iff, List.forall₂_map_right_iff]
        exact List.forall₂_same.mpr
          (fun x hx => ih x (mem_of_mem_reorder hx))
      have h2 := flatten_perm_of_forall₂ h1
      have h3 : ((reorder children).map payloads).flatten.Perm
          ((children.map payloads).flatten) := ((reorder_perm children).map payloads).flatten
      exact h2.trans h3

/-- Claim C9: normalization only permutes children.  At every node the
output child list is a permutation of the input children (each
recursively normalized, so each original child occurs exactly once under
its same parent), and globally the multiset of node payloads (tag,
attributes, text, tail) of the whole tree is unchanged. -/
theorem sort_permutes_children (n : Node) :
    ((sort_children_recursively n).children).Perm (n.children.map sort_children_recursively) ∧
    (payloads (sort_children_recursively n)).Perm (payloads n) := by
  constructor
  · cases n with
    | mk tag attrs text tail children =>
      rw [sort_children_recursively_def]
      show ((reorder children).map sort_children_recursively).Perm _
      exact (reorder_perm children).map _
  · exact payloads_sort_perm n

/-! ### The formatter: unfolding equations and content preservation -/

theorem indent_xml_of_nil (level : Nat) (n : Node) (h : n.children = []) :
    indent_xml level n =
      if level != 0 && wsOnly n.tail then { n with tail := "\n" ++ tabs level }
      else n := by
  have hne : n.children.isEmpty = true := by rw [h]; rfl
  rw [indent_xml]
  simp only [hne, if_true]

theorem indent_xml_of_ne_nil (level : Nat) (n : Node) (h : n.children ≠ []) :
    indent_xml level n =
      { n with
        text := if wsOnly n.text then "\n" ++ tabs level ++ "\t" else n.text,
        tail := if wsOnly n.tail then "\n" ++ tabs level else n.tail,
        children := fixLast (n.children.map (indent_xml (level + 1))) ("\n" ++ tabs level) } := by
  have hne : n.children.isEmpty = false := by
    cases hc : n.children with
    | nil => exact absurd hc h
    | cons a l => rfl
  rw [indent_xml]
  simp only [hne, Bool.false_eq_true, if_false, List.attach_map_val]

theorem contentPreserved_refl : ∀ n : Node, ContentPreserved n n := by
  intro n0
  induction n0 using Node.strongInduction with
  | _ n ih =>
    exact ContentPreserved.mk n n rfl rfl (fun _ => rfl) (fun _ => rfl)
      (List.forall₂_same.mpr ih)

theorem cp_tweak (s : String) (a b : Node) (hab : ContentPreserved a b) :
    ContentPreserved a (if wsOnly b.tail then { b with tail := s } else b) := by
  by_cases hb : wsOnly b.tail = true
  · rw [if_pos hb]
    cases hab with
    | mk _ _ htag hattrs htext htail hch =>
      refine ContentPreserved.mk _ _ htag hattrs htext ?_ hch
      intro hws
      exfalso
      rw [htail hws, hws] at hb
      exact Bool.false_ne_true hb
  · rw [if_neg hb]
    exact hab

theorem forall₂_fixLast {l₁ l₂ : List Node} (s : String)
    (h : List.Forall₂ ContentPreserved l₁ l₂) :
    List.Forall₂ ContentPreserved l₁ (fixLast l₂ s) := by
  induction h with
  | nil => exact List.Forall₂.nil
  | cons hab htail ih =>
    rename_i a b l₁x l₂x
    cases l₂x with
    | nil =>
      have hl : l₁x = [] := List.forall₂_nil_right_iff.mp htail
      subst hl
      simp only [fixLast]
      exact List.Forall₂.cons (cp_tweak s a b hab) List.Forall₂.nil
    | cons b2 l₂y =>
      simp only [fixLast]
      exact List.Forall₂.cons hab ih

theorem contentPreserved_indent : ∀ (n : Node) (level : Nat),
    ContentPreserved n (indent_xml level n) := by
  intro n0
  induction n0 using Node.strongInduction with
  | _ n ih =>
    intro level
    by_cases h : n.children = []
    · rw [indent_xml_of_nil level n h]
      by_cases hcond : (level != 0 && wsOnly n.tail) = true
      · rw [if_pos hcond]
        refine ContentPreserved.mk _ _ rfl rfl (fun _ => rfl) ?_ ?_
        · intro hws
          exfalso
          have h2 := (Bool.and_eq_true _ _).mp hcond
          rw [hws] at h2
          exact Bool.false_ne_true h2.2
        · show List.Forall₂ ContentPreserved n.children n.children
          exact List.forall₂_same.mpr (fun c _ => contentPreserved_refl c)
      · rw [if_neg hcond]
        exact contentPreserved_refl n
    · rw [indent_xml_of_ne_nil level n h]
      refine ContentPreserved.mk _ _ rfl rfl ?_ ?_ ?_
      · intro hws
        show (if wsOnly n.text then "\n" ++ tabs level ++ "\t" else n.text) = n.text
        rw [if_neg (by rw [hws]; exact Bool.false_ne_true)]
      · intro hws
        show (if wsOnly n.tail then "\n" ++ tabs level else n.tail) = n.tail
        rw [if_neg (by rw [hws]; exact Bool.false_ne_true)]
      · show List.Forall₂ ContentPreserved n.children
          (fixLast (n.children.map (indent_xml (level + 1))) ("\n" ++ tabs level))
        apply forall₂_fixLast
        rw [List.forall₂_map_right_iff]
        exact List.forall₂_same.mpr (fun c hc => ih c hc (level + 1))

/-- Claim C5: no content mutation.  Sorting preserves the multiset of
node payloads byte-for-byte (attributes, text and tail travel untouched
with each node), and the subsequent formatting pass preserves, node by
node, all attributes and every text/tail field that contains
non-whitespace content — it can only rewrite empty or whitespace-only
text/tail fields. -/
theorem content_preservation (n : Node) :
    (payloads (sort_children_recursively n)).Perm (payloads n) ∧
    ContentPreserved (sort_children_recursively n)
      (indent_xml 0 (sort_children_recursively n)) :=
  ⟨payloads_sort_perm n, contentPreserved_indent _ 0⟩

/-! ### Claim C6: the exact whitespace written by the formatter -/

theorem tabs_succ (level : Nat) : tabs (level + 1) = tabs level ++ "\t" := by
  rw [tabs, tabs, List.replicate_succ']
  rfl

theorem fixLast_getLastQ (s : String) : ∀ (cs : List Node) (c : Node),
    cs.getLast? = some c →
    (fixLast cs s).getLast? = some (if wsOnly c.tail then { c with tail := s } else c) := by
  intro cs
  induction cs with
  | nil => intro c h; exact Option.noConfusion h
  | cons a l ih =>
    intro c h
    cases l with
    | nil =>
      simp only [List.getLast?_singleton, Option.some.injEq] at h
      subst h
      simp only [fixLast, List.getLast?_singleton]
    | cons b l2 =>
      rw [List.getLast?_cons_cons] at h
      cases l2 with
      | nil =>
        simp only [List.getLast?_singleton, Option.some.injEq] at h
        subst h
        simp only [fixLast, List.getLast?_cons_cons, List.getLast?_singleton]
      | cons d l3 =>
        simp only [fixLast]
        rw [List.getLast?_cons_cons]
        exact ih c h

/-- Claim C6: for a node with children, after recursively formatting the
children, a whitespace-only tail of the last (formatted) child is
overwritten to a newline plus one tab per level of the parent, and the
node's own whitespace-only text becomes a newline plus one tab per
(level + 1). -/
theorem indent_text_and_last_tail (level : Nat) (n : Node) (h : n.children ≠ []) :
    (wsOnly n.text = true → (indent_xml level n).text = "\n" ++ tabs (level + 1)) ∧
    (∀ c : Node, (n.children.map (indent_xml (level + 1))).getLast? = some c →
      wsOnly c.tail = true →
      (indent_xml level n).children.getLast? = some { c with tail := "\n" ++ tabs level }) := by
  rw [indent_xml_of_ne_nil level n h]
  constructor
  · intro hws
    show (if wsOnly n.text then "\n" ++ tabs level ++ "\t" else n.text) = _
    rw [if_pos hws, tabs_succ, String.append_assoc]
  · intro c hc hws
    show (fixLast (n.children.map (indent_xml (level + 1))) ("\n" ++ tabs level)).getLast? = _
    rw [fixLast_getLastQ ("\n" ++ tabs level) _ c hc]
    rw [if_pos hws]

theorem indent_sampleLeaf : indent_xml 1 sampleLeaf = sampleLeafIndented := by
  rw [indent_xml_of_nil 1 sampleLeaf rfl]
  rw [if_pos (by decide)]
  rfl

theorem indent_text_and_last_tail_witness :
    (indent_xml 0 sampleParent).text = "\n" ++ tabs 1 ∧
    (indent_xml 0 sampleParent).children.getLast? =
      some (Node.mk "Other" [] "" ("\n" ++ tabs 0) []) := by
  have h := indent_text_and_last_tail 0 sampleParent (List.cons_ne_nil _ _)
  constructor
  · exact h.1 (by decide)
  · exact h.2 sampleLeafIndented
      (by simp [sampleParent, indent_sampleLeaf]) (by decide)

/-! ### Claim C7: no XML declaration -/

theorem indent_tag (level : Nat) (n : Node) : (indent_xml level n).tag = n.tag := by
  by_cases h : n.children = []
  · rw [indent_xml_of_nil level n h]
    by_cases hc : (level != 0 && wsOnly n.tail) = true
    · rw [if_pos hc]
    · rw [if_neg hc]
  · rw [indent_xml_of_ne_nil level n h]

theorem append5_shape (a b c d e : String) :
    ∃ rest : String, a ++ b ++ c ++ d ++ e = a ++ (b ++ rest) :=
  ⟨c ++ d ++ e, by simp only [String.append_assoc]⟩

theorem serialize_shape (elem : Node) :
    ∃ rest : String, serialize elem = "<" ++ (elem.tag ++ rest) := by
  rw [serialize]
  exact append5_shape "<" elem.tag (serializeAttrs elem.attrs) _ _

/-- Claim C7: for a well-formed root (a non-empty tag whose first
character is not `?` — true of every parsed XML name), the serialized
output of `format_xml_output` never starts with `<?xml`. -/
theorem no_xml_declaration (root : Node) (h1 : root.tag ≠ "")
    (h2 : root.tag.data.head? ≠ some '?') :
    ∀ r : String, format_xml_output root ≠ "<?xml" ++ r := by
  intro r heq
  obtain ⟨rest, hrest⟩ := serialize_shape (indent_xml 0 root)
  rw [format_xml_output, hrest, indent_tag 0 root] at heq
  have hd := congrArg String.data heq
  simp only [String.data_append, List.cons_append, List.nil_append] at hd
  cases ht : root.tag.data with
  | nil =>
    apply h1
    apply String.ext
    rw [ht]
  | cons c cs =>
    rw [ht] at hd
    simp only [List.cons_append] at hd
    injection hd with h3 h4
    injection h4 with h5 h6
    apply h2
    rw [ht, h5]
    rfl

theorem no_xml_declaration_witness :
    format_xml_output sampleLeaf ≠ "<?xml" ++ "version=\"1.0\"?>" :=
  no_xml_declaration sampleLeaf (by decide) (by decide) "version=\"1.0\"?>"

/-! ### Claim C10: a childless root is untouched by formatting -/

/-- Claim C10: `indent_xml` at level 0 on a childless root changes
nothing — the `level > 0` guard in the childless branch leaves text and
tail exactly as parsed — so `format_xml_output` is just serialization. -/
theorem childless_root_untouched (n : Node) (h : n.children = []) :
    indent_xml 0 n = n ∧ format_xml_output n = serialize n := by
  have h1 : indent_xml 0 n = n := by
    rw [indent_xml_of_nil 0 n h]
    rw [if_neg (by simp)]
  exact ⟨h1, by rw [format_xml_output, h1]⟩

theorem childless_root_untouched_witness :
    indent_xml 0 sampleLeaf = sampleLeaf ∧
    format_xml_output sampleLeaf = serialize sampleLeaf :=
  childless_root_untouched sampleLeaf rfl

/-! ### Claim C8: parse failure handling -/

/-- Claim C8: when the input is not well-formed XML, the run exits with
status 1, reports the parser's diagnostic as a single line on the error
stream, and writes no output; the model is a single evaluation with no
retry. -/
theorem parse_error_exits_one (msg : String) (out_file : String) :
    (process_settings_file (Except.error msg) out_file).exitCode = 1 ∧
    (process_settings_file (Except.error msg) out_file).errLines =
      ["Error parsing XML file: " ++ msg] ∧
    (process_settings_file (Except.error msg) out_file).written = none :=
  ⟨rfl, rfl, rfl⟩

/-! ### Claim C1: the sort key -/

/-- Claim C1 counterexample: on a `Category` node carrying `name=""` and
`GUID="A"`, the code computes key `""` while the specified rule (`name`
only when present and non-empty, else non-empty `GUID`) gives `"A"`; so
the claimed key derivation does not match the code. -/
theorem sort_key_spec_counterexample :
    sort_key_for_element emptyNameNode = "" ∧
    spec_sort_key emptyNameNode = "A" ∧
    sort_key_for_element emptyNameNode ≠ spec_sort_key emptyNameNode := by
  refine ⟨rfl, rfl, ?_⟩
  intro h
  exact absurd h (by decide)

/-- Claim C1 (amended): the sort key equals the value of the `name`
attribute whenever that attribute is present — even when its value is
empty — otherwise the value of `GUID` when present, otherwise the empty
string. -/
theorem sort_key_presence_rule (n : Node) :
    sort_key_for_element n = amended_sort_key n := by
  unfold sort_key_for_element amended_sort_key
  cases hn : n.get "name" with
  | none =>
    cases hg : n.get "GUID" with
    | none => rfl
    | some v => rfl
  | some v => rfl
